import Mathlib

/-!
Verification development for the `vlsu_schedule_bot` repository.

The two components with algorithmic content are embedded here:

* `app/vlsu_api.py` — the schedule normalizer (`normalize_schedule` with its
  generic tree walker, and the slotted-day parser
  `_normalize_special_day_array` with the free-text cell tokenizer
  `_parse_cell_text`);
* `app/bot.py` — the academic-calendar resolver `get_week_status` with its
  static configuration `SEMESTER_START` / `SPECIAL_PERIODS`.

JSON values are modelled by the mutual inductive type `J`/`JList`/`JFields`
(a Python dict is an association list of string keys in insertion order; real
payloads have unique keys).  Python `None` is `J.null`; absence of a dict key
is absence from the association list.  Machine-level caveats of the modelling,
each called out at the definition it concerns:

* `str()` of a list/dict is rendered as an opaque marker (no claim below
  depends on the rendered text of a container);
* the `\d` regex class and `str.isdigit` are modelled as ASCII digits (the
  payloads at issue contain only ASCII digits);
* `str.lower()` is modelled for ASCII and the Russian alphabet, the only
  scripts appearing in the table keys the source lowercases against.
-/

mutual
inductive J where
  | null : J
  | str (s : String) : J
  | num (n : Int) : J
  | bool (b : Bool) : J
  | arr (xs : JList) : J
  | obj (fs : JFields) : J
deriving Repr

inductive JList where
  | nil : JList
  | cons (hd : J) (tl : JList) : JList
deriving Repr

inductive JFields where
  | nil : JFields
  | cons (k : String) (v : J) (tl : JFields) : JFields
deriving Repr
end

mutual
/-- Structural equality on JSON values (the derived instance for a mutual
inductive does not reduce in the kernel, so equality is spelled out). -/
def jeq : J → J → Bool
  | .null, .null => true
  | .str a, .str b => a = b
  | .num a, .num b => a = b
  | .bool a, .bool b => a = b
  | .arr a, .arr b => jleq a b
  | .obj a, .obj b => jfeq a b
  | _, _ => false
termination_by structural a => a

/-- Structural equality on JSON lists. -/
def jleq : JList → JList → Bool
  | .nil, .nil => true
  | .cons a as, .cons b bs => jeq a b && jleq as bs
  | _, _ => false
termination_by structural a => a

/-- Structural equality on JSON object fields. -/
def jfeq : JFields → JFields → Bool
  | .nil, .nil => true
  | .cons k a as, .cons k' b bs => k = k' && jeq a b && jfeq as bs
  | _, _ => false
termination_by structural a => a
end

mutual
/-- `jeq` decides propositional equality. -/
theorem jeq_iff : ∀ a b : J, jeq a b = true ↔ a = b
  | .null, b => by cases b <;> simp [jeq]
  | .str a, b => by cases b <;> simp [jeq]
  | .num a, b => by cases b <;> simp [jeq]
  | .bool a, b => by cases b <;> simp [jeq]
  | .arr a, b => by cases b <;> simp [jeq, jleq_iff a]
  | .obj a, b => by cases b <;> simp [jeq, jfeq_iff a]
termination_by structural a => a

/-- `jleq` decides propositional equality. -/
theorem jleq_iff : ∀ a b : JList, jleq a b = true ↔ a = b
  | .nil, b => by cases b <;> simp [jleq]
  | .cons a as, b => by cases b <;> simp [jleq, jeq_iff a, jleq_iff as]
termination_by structural a => a

/-- `jfeq` decides propositional equality. -/
theorem jfeq_iff : ∀ a b : JFields, jfeq a b = true ↔ a = b
  | .nil, b => by cases b <;> simp [jfeq]
  | .cons k a as, b => by cases b <;> simp [jfeq, jeq_iff a, jfeq_iff as, and_assoc]
termination_by structural a => a
end

instance : DecidableEq J := fun a b => decidable_of_iff _ (jeq_iff a b)

instance : DecidableEq JList := fun a b => decidable_of_iff _ (jleq_iff a b)

instance : DecidableEq JFields := fun a b => decidable_of_iff _ (jfeq_iff a b)

/-- Build a `JList` from a Lean list literal (notation convenience only). -/
def jlOf : List J → JList
  | [] => .nil
  | x :: t => .cons x (jlOf t)

/-- Build a `JFields` from a Lean list literal (notation convenience only). -/
def jfOf : List (String × J) → JFields
  | [] => .nil
  | (k, v) :: t => .cons k v (jfOf t)

/-- `d.get(k)` / `d[k]` on a Python dict: the value stored under `k`.
For the unique-keyed dicts produced by `json` parsing the first match is the
only match. -/
def fGet (fs : JFields) (k : String) : Option J :=
  match fs with
  | .nil => none
  | .cons k' v t => if k' = k then some v else fGet t k

/-- `k in d` on a Python dict. -/
def fHas (fs : JFields) (k : String) : Bool :=
  match fs with
  | .nil => false
  | .cons k' _ t => k' = k || fHas t k

/-- Python truthiness of a JSON value (`bool(v)`). -/
def truthy : J → Bool
  | .null => false
  | .str s => s ≠ ""
  | .num n => n ≠ 0
  | .bool b => b
  | .arr xs => xs ≠ .nil
  | .obj fs => fs ≠ .nil

/-- Python `str()` of a JSON value.  Strings, numbers, booleans and `None`
are rendered exactly; a list/dict is rendered as an opaque marker, since no
claim in this development inspects the rendered text of a container. -/
def pyStr : J → String
  | .null => "None"
  | .str s => s
  | .num n => toString n
  | .bool b => if b then "True" else "False"
  | .arr _ => "<list>"
  | .obj _ => "<dict>"

/-- Python `str.lower()` for the scripts the source lowercases against:
ASCII letters and the Russian alphabet (`А`–`Я` and `Ё`). -/
def pyLowerChar (c : Char) : Char :=
  if 'A' ≤ c ∧ c ≤ 'Z' then Char.ofNat (c.toNat + 32)
  else if 0x410 ≤ c.toNat ∧ c.toNat ≤ 0x42F then Char.ofNat (c.toNat + 0x20)
  else if c.toNat = 0x401 then Char.ofNat 0x451
  else c

/-- Python `s.lower()` (see `pyLowerChar`).  Implemented on the character
list so that it reduces in the kernel. -/
def pyLower (s : String) : String := String.mk (s.data.map pyLowerChar)

/-- Python `s.strip()`: drop leading and trailing whitespace. -/
def pyTrim (s : String) : String :=
  String.mk (((s.data.dropWhile Char.isWhitespace).reverse.dropWhile
      Char.isWhitespace).reverse)

/-- One list is a prefix of another (boolean, structural). -/
def isPrefixList : List Char → List Char → Bool
  | [], _ => true
  | _ :: _, [] => false
  | a :: p, b :: l => a = b && isPrefixList p l

/-- Some suffix of `l` starts with `pat` (boolean substring search). -/
def containsSub (pat : List Char) : List Char → Bool
  | [] => isPrefixList pat []
  | c :: t => isPrefixList pat (c :: t) || containsSub pat t

/-- Python substring test `pat in hay` for a non-empty pattern. -/
def pyContains (hay pat : String) : Bool := containsSub pat.data hay.data

/-- Python single-character membership `c in s`. -/
def pyContainsChar (s : String) (c : Char) : Bool := s.data.any (fun d => d = c)

/-- Split a character list at every occurrence of `sep`
(Python `s.split(sep)` for a one-character separator: empty chunks kept). -/
def splitSepAux (sep : Char) (l : List Char) (acc : List Char) : List String :=
  match l with
  | [] => [String.mk acc.reverse]
  | c :: t =>
    if c = sep then String.mk acc.reverse :: splitSepAux sep t []
    else splitSepAux sep t (c :: acc)

/-- Python `s.split(",")`. -/
def pySplitComma (s : String) : List String := splitSepAux ',' s.data []

/-- Python `", ".join(parts)`. -/
def joinCommaSp : List String → String
  | [] => ""
  | [x] => x
  | x :: t => x ++ ", " ++ joinCommaSp t

/-- The value of a digit string (used under an `isdigit` guard only). -/
def digitsToNat (l : List Char) : Nat :=
  l.foldl (fun acc c => acc * 10 + (c.toNat - 48)) 0

/-- Python string comparison `a <= b`: lexicographic by code point.  (The
library order on `String` is the same relation but does not reduce in the
kernel, so it is spelled out structurally.) -/
def lexLe : List Char → List Char → Bool
  | [], _ => true
  | _ :: _, [] => false
  | a :: as, b :: bs => if a = b then lexLe as bs else decide (a < b)

/-- Python `a <= b` on strings. -/
def pyStrLe (a b : String) : Bool := lexLe a.data b.data

/-- `_pick(d, *keys, default=dflt)` from `app/vlsu_api.py`: the value of the
first listed key that is present and neither `None` nor `""`. -/
def _pick (fs : JFields) (keys : List String) (dflt : J) : J :=
  match keys with
  | [] => dflt
  | k :: ks =>
    match fGet fs k with
    | some v => if v ≠ J.null ∧ v ≠ J.str "" then v else _pick fs ks dflt
    | none => _pick fs ks dflt

/-- The canonical lesson record emitted by `normalize_schedule`: the Python
dict with exactly the keys day/start/end/title/teacher/room/kind/week.  The
`end` key is spelled `endT` (`end` is reserved).  `week` is always the string
produced by `normalize_week_type` or a parity literal of the slotted parser. -/
structure Lesson where
  day : J
  start : J
  endT : J
  title : J
  teacher : J
  room : J
  kind : J
  week : String
deriving DecidableEq, Repr

/-- The tuple `(l["day"], l["start"], ..., l["week"])` used as the
deduplication key in `normalize_schedule`; it lists every field of the
record. -/
def lessonKey (l : Lesson) : J × J × J × J × J × J × J × String :=
  (l.day, l.start, l.endT, l.title, l.teacher, l.room, l.kind, l.week)

/-- `normalize_week_type` from `app/vlsu_api.py`.  A Python `bool` is an
`int` (`True == 1`), hence the `bool` arm. -/
def normalize_week_type (val : J) : String :=
  match val with
  | .null => "all"
  | .num v => if v = 1 then "odd" else if v = 2 then "even" else "all"
  | .bool b => if b then "odd" else "all"
  | v =>
    let s := pyLower (pyTrim (pyStr v))
    if pyContains s "числ" ∨ pyContains s "odd" then "odd"
    else if pyContains s "знам" ∨ pyContains s "even" then "even"
    else "all"

/-- `PAIR_TIMES.get(idx, (None, None))`: the fixed bell-schedule table of
`app/vlsu_api.py`. -/
def PAIR_TIMES (idx : Nat) : Option String × Option String :=
  match idx with
  | 1 => (some "08:30", some "10:00")
  | 2 => (some "10:20", some "11:50")
  | 3 => (some "12:10", some "13:40")
  | 4 => (some "14:00", some "15:30")
  | 5 => (some "15:50", some "17:20")
  | 6 => (some "17:40", some "19:10")
  | 7 => (some "19:30", some "21:00")
  | _ => (none, none)

/-- `DAY_MAP_RU` from `app/vlsu_api.py`: weekday name → ISO weekday. -/
def DAY_MAP_RU : List (String × Int) :=
  [("понедельник", 1), ("вторник", 2), ("среда", 3), ("четверг", 4),
   ("пятница", 5), ("суббота", 6), ("воскресенье", 7)]

/-- `DAY_MAP_RU.get(name)`. -/
def dayMapGet (name : String) : Option Int :=
  (DAY_MAP_RU.find? (fun p => p.1 = name)).map (fun p => p.2)

/-- `_looks_like_room` from `app/vlsu_api.py`: after stripping, contains a
digit (`\d`, modelled as an ASCII digit) or a hyphen. -/
def _looks_like_room (s : String) : Bool :=
  let s := pyTrim s
  s.data.any Char.isDigit || pyContainsChar s '-' 

/-- `_looks_like_teacher` from `app/vlsu_api.py`: contains both a period and
a space (no stripping). -/
def _looks_like_teacher (s : String) : Bool :=
  pyContainsChar s '.' && pyContainsChar s ' '

/-- Remove the first element satisfying `p`, returning it and the rest in
order — the index/`used`-set bookkeeping of `_parse_cell_text` reduced to the
token pool it is equivalent to (scan in order, stop at first match). -/
def extractFirst (p : String → Bool) : List String → Option String × List String
  | [] => (none, [])
  | x :: xs =>
    if p x then (some x, xs)
    else
      let r := extractFirst p xs
      (r.1, x :: r.2)

/-- `_parse_cell_text` from `app/vlsu_api.py`:
split on commas, trim, drop empties; a first token of length ≤ 3 is the
`kind`; the first remaining room-looking token is the `room`; the first
remaining teacher-looking token is the `teacher`; what is left, rejoined with
`", "`, is the `title`.  Result `(kind, room, teacher, title)`. -/
def _parse_cell_text (s : String) :
    Option String × Option String × Option String × Option String :=
  if s = "" then (none, none, none, none)
  else
    let parts := ((pySplitComma s).map pyTrim).filter (fun p => p ≠ "")
    let kind : Option String :=
      match parts with
      | p :: _ => if p.data.length ≤ 3 then some p else none
      | [] => none
    let pool0 := if kind.isSome then parts.tail else parts
    let r1 := extractFirst _looks_like_room pool0
    let room := r1.1
    let r2 := extractFirst _looks_like_teacher r1.2
    let teacher := r2.1
    let title : Option String :=
      if r2.2 ≠ [] then some (joinCommaSp r2.2) else none
    (kind, room, teacher, title)

/-- Truthiness of an optional token (`None` is falsy, `""` is falsy).  The
tokens produced by `_parse_cell_text` are never empty strings, but the guard
in the source is a truthiness test, so it is modelled as one. -/
def optTruthy : Option String → Bool
  | none => false
  | some s => s ≠ ""

/-- An optional token as the JSON value stored in the record. -/
def optJ : Option String → J
  | none => J.null
  | some s => J.str s

/-- `(day_obj.get(key) or "").strip()` for a slot cell.  A truthy non-string
cell value would raise `AttributeError` on `.strip()` in the source; it is
modelled via `str()` here — no claim below concerns such inputs, which the
source cannot process at all. -/
def slotCell (fs : JFields) (key : String) : String :=
  match fGet fs key with
  | some (J.str s) => pyTrim s
  | some v => if truthy v then pyTrim (pyStr v) else ""
  | none => ""

/-- One `(key, week)` iteration of the slot loop in
`_normalize_special_day_array`: read cell `key ++ idx`, parse it, emit the
record unless every one of kind/room/teacher/title is falsy. -/
def slotRecord (dayNum : Int) (idx : Nat) (week : String) (fs : JFields)
    (key : String) : List Lesson :=
  let cell := slotCell fs (key ++ toString idx)
  if cell = "" then []
  else
    let parsed := _parse_cell_text cell
    let kind := parsed.1
    let room := parsed.2.1
    let teacher := parsed.2.2.1
    let title := parsed.2.2.2
    let times := PAIR_TIMES idx
    if optTruthy title || optTruthy room || optTruthy teacher || optTruthy kind then
      [{ day := J.num dayNum, start := optJ times.1, endT := optJ times.2,
         title := optJ title, teacher := optJ teacher, room := optJ room,
         kind := optJ kind, week := week }]
    else []

/-- `str(day_obj.get("name", "")).strip().lower()`. -/
def dayNameOf (fs : JFields) : String :=
  pyLower (pyTrim (match fGet fs "name" with
                   | some v => pyStr v
                   | none => ""))

/-- One day-object of `_normalize_special_day_array`: require
`type == "Lessons"`, resolve the lowercased stripped `name` against
`DAY_MAP_RU` (values are 1..7, never 0, so the source's truthiness test on
the lookup is a `None` test), then walk pair indices 1..7, numerator slot
before denominator slot. -/
def slotDay (dayObj : J) : List Lesson :=
  match dayObj with
  | J.obj fs =>
    if fGet fs "type" = some (J.str "Lessons") then
      match dayMapGet (dayNameOf fs) with
      | some dayNum =>
        (List.range' 1 7).flatMap
          (fun idx => slotRecord dayNum idx "odd" fs "n" ++
                      slotRecord dayNum idx "even" fs "z")
      | none => []
    else []
  | _ => []

/-- `_normalize_special_day_array` from `app/vlsu_api.py`: concatenate the
records of each day-object in list order (non-dicts are skipped). -/
def _normalize_special_day_array (raw : JList) : List Lesson :=
  match raw with
  | .nil => []
  | .cons h t => slotDay h ++ _normalize_special_day_array t

/-- Python `str.isdigit` (ASCII digits; the coercion site only ever sees
ASCII day numbers). -/
def isdigitStr (s : String) : Bool := s.data ≠ [] && s.data.all Char.isDigit

/-- The day coercion in `push`: `int(day) if str(day).isdigit() else day`. -/
def coerceDay (d : J) : J :=
  let s := pyStr d
  if isdigitStr s then J.num (digitsToNat s.data) else d

/-- The alias key lists of `push` / `walk` in `app/vlsu_api.py`, in source
order.  The `walk` candidate test lists the title aliases in a different
order than `push` does; both orders are kept. -/
def weekKeys : List String := ["WeekType", "Week", "WeekMode", "TypeWeek"]

/-- Day alias keys of `push` and `walk`. -/
def dayKeys : List String := ["Day", "DayOfWeek", "WeekDay"]

/-- Start alias keys of `push` and of the candidate test in `walk`. -/
def startKeys : List String := ["Start", "TimeStart", "Begin", "From", "StartTime"]

/-- End alias keys of `push`. -/
def endKeys : List String := ["End", "TimeEnd", "Finish", "To", "EndTime"]

/-- Title alias keys of `push`. -/
def titleKeys : List String := ["Title", "Discipline", "Subject", "Name", "Lesson"]

/-- Title alias keys of the candidate test in `walk` (note the different
order from `titleKeys`; `any` makes the order immaterial). -/
def titleKeysWalk : List String := ["Title", "Discipline", "Subject", "Lesson", "Name"]

/-- Teacher alias keys of `push`. -/
def teacherKeys : List String := ["Teacher", "Lecturer", "Professor", "Prepod", "TeacherName"]

/-- Room alias keys of `push`. -/
def roomKeys : List String := ["Room", "Audience", "Auditory", "Classroom", "Cabinet", "Aud"]

/-- Kind alias keys of `push`. -/
def kindKeys : List String := ["Kind", "Type", "LessonType", "Format"]

/-- `push(item, ctx_day, ctx_week)` from `normalize_schedule`: extract each
field through its alias list, discard the candidate when title, room,
teacher, start and end are all falsy, otherwise emit the record (with the
numeric-looking day coerced to an integer). -/
def pushRec (fs : JFields) (ctxDay ctxWeek : J) : Option Lesson :=
  let week := normalize_week_type (_pick fs weekKeys ctxWeek)
  let day := _pick fs dayKeys ctxDay
  let start := _pick fs startKeys J.null
  let endv := _pick fs endKeys J.null
  let title := _pick fs titleKeys J.null
  let teacher := _pick fs teacherKeys J.null
  let room := _pick fs roomKeys J.null
  let kind := _pick fs kindKeys J.null
  if truthy title || truthy room || truthy teacher || truthy start || truthy endv then
    some { day := coerceDay day, start := start, endT := endv, title := title,
           teacher := teacher, room := room, kind := kind, week := week }
  else none

/-- The candidate test of `walk`: the node has some start-alias key or some
title-alias key. -/
def isCandidate (fs : JFields) : Bool :=
  startKeys.any (fun k => fHas fs k) || titleKeysWalk.any (fun k => fHas fs k)

mutual
/-- `walk(node, ctx_day, ctx_week)` from `normalize_schedule`, returning the
records it appends, in append order: the node's own record if it is a
candidate; then the subtrees under the six container keys with the updated
day/week context; then the subtrees under the five week-variant keys with
the *inherited* day context and the variant's canonical week value; then
every remaining dict/list field value with the updated context.  The
per-key loops of the source are unrolled over their constant key tuples,
each key handled by `walkField` (for a unique-keyed dict, `walkField k`
walks exactly `node[k]` when `k` is present). -/
def walk (node : J) (cd cw : J) : List Lesson :=
  match node with
  | .arr xs => walkList xs cd cw
  | .obj fs =>
    (if isCandidate fs then (pushRec fs cd cw).toList else []) ++
    (let nd := _pick fs dayKeys cd
     let nw := _pick fs weekKeys cw
     walkField "Days" fs nd nw ++ walkField "DayItems" fs nd nw ++
     walkField "Schedule" fs nd nw ++ walkField "Lessons" fs nd nw ++
     walkField "Pairs" fs nd nw ++ walkField "Items" fs nd nw ++
     walkField "All" fs cd (J.str "all") ++
     walkField "Numerator" fs cd (J.str "odd") ++
     walkField "Odd" fs cd (J.str "odd") ++
     walkField "Denominator" fs cd (J.str "even") ++
     walkField "Even" fs cd (J.str "even") ++
     walkAll fs nd nw)
  | _ => []
termination_by structural node

/-- A list node of `walk`: each element with the same inherited context. -/
def walkList (xs : JList) (cd cw : J) : List Lesson :=
  match xs with
  | .nil => []
  | .cons h t => walk h cd cw ++ walkList t cd cw
termination_by structural xs

/-- `if key in node: walk(node[key], d, w)` — walk the value(s) stored under
`key`. -/
def walkField (key : String) (fs : JFields) (cd cw : J) : List Lesson :=
  match fs with
  | .nil => []
  | .cons k v t =>
    (if k = key then walk v cd cw else []) ++ walkField key t cd cw
termination_by structural fs

/-- The catch-all loop of `walk`: recurse into every dict/list field
value. -/
def walkAll (fs : JFields) (cd cw : J) : List Lesson :=
  match fs with
  | .nil => []
  | .cons _ v t =>
    (match v with
     | .arr xs => walk (J.arr xs) cd cw
     | .obj gs => walk (J.obj gs) cd cw
     | .null => []
     | .str _ => []
     | .num _ => []
     | .bool _ => []) ++ walkAll t cd cw
termination_by structural fs
end

/-- The deduplication pass of `normalize_schedule`: keep a record when its
key tuple has not been seen, remembering seen keys. -/
def dedupAux (ls : List Lesson) (seen : List (J × J × J × J × J × J × J × String)) :
    List Lesson :=
  match ls with
  | [] => []
  | l :: t =>
    if lessonKey l ∈ seen then dedupAux t seen
    else l :: dedupAux t (lessonKey l :: seen)

/-- The slotted-format detection inside `normalize_schedule`: some element is
a dict containing key `"n1"` or key `"z1"`. -/
def anySlotKeys (xs : JList) : Bool :=
  match xs with
  | .nil => false
  | .cons h t =>
    (match h with
     | J.obj fs => fHas fs "n1" || fHas fs "z1"
     | J.null => false
     | J.str _ => false
     | J.num _ => false
     | J.bool _ => false
     | J.arr _ => false) || anySlotKeys t

/-- `isinstance(raw, list) and any(isinstance(x, dict) and ("n1" in x or "z1" in x) for x in raw)`. -/
def detectSlotted (raw : J) : Bool :=
  match raw with
  | .arr xs => anySlotKeys xs
  | _ => false

/-- `normalize_schedule` from `app/vlsu_api.py`: dispatch on the slotted
detection; the slotted parser's output is returned as-is, the generic
walker's output goes through the deduplication pass. -/
def normalize_schedule (raw : J) : List Lesson :=
  match raw with
  | .arr xs =>
    if anySlotKeys xs then _normalize_special_day_array xs
    else dedupAux (walk (J.arr xs) J.null J.null) []
  | _ => dedupAux (walk raw J.null J.null) []

/-- A Python `datetime.date`: a valid proleptic-Gregorian calendar date.
Comparison and subtraction in the source are chronological; both are derived
here from the rata-die day number `toRD`, which agrees with them on valid
dates. -/
structure PDate where
  y : Nat
  m : Nat
  d : Nat
deriving DecidableEq, Repr

/-- Gregorian leap-year test. -/
def isLeap (y : Nat) : Bool := (y % 4 = 0 && y % 100 ≠ 0) || y % 400 = 0

/-- Days in the months strictly before month `m` of a common year. -/
def monthOffset (m : Nat) : Nat :=
  match m with
  | 1 => 0 | 2 => 31 | 3 => 59 | 4 => 90 | 5 => 120 | 6 => 151
  | 7 => 181 | 8 => 212 | 9 => 243 | 10 => 273 | 11 => 304 | 12 => 334
  | _ => 0

/-- Day-of-year of a date (1-based). -/
def dayOfYear (dt : PDate) : Nat :=
  monthOffset dt.m + (if 3 ≤ dt.m ∧ isLeap dt.y then 1 else 0) + dt.d

/-- Rata-die day number: day 1 is 0001-01-01, a Monday. -/
def toRD (dt : PDate) : Nat :=
  365 * (dt.y - 1) + (dt.y - 1) / 4 - (dt.y - 1) / 100 + (dt.y - 1) / 400 +
    dayOfYear dt

/-- `date.isoweekday()`: 1 = Monday .. 7 = Sunday. -/
def isoweekday (dt : PDate) : Nat := (toRD dt - 1) % 7 + 1

/-- Chronological `a <= b` on dates (Python `date.__le__` on valid dates). -/
def dateLe (a b : PDate) : Bool := toRD a ≤ toRD b

/-- `(a - b).days` on dates. -/
def dateSub (a b : PDate) : Int := (toRD a : Int) - (toRD b : Int)

/-- `SEMESTER_START` from `app/bot.py`. -/
def SEMESTER_START : PDate := ⟨2025, 9, 1⟩

/-- `SPECIAL_PERIODS` from `app/bot.py`, in source order: inclusive date
ranges with their regime tag. -/
def SPECIAL_PERIODS : List (PDate × PDate × String) :=
  [(⟨2025, 9, 29⟩, ⟨2025, 10, 11⟩, "rc"),
   (⟨2025, 11, 10⟩, ⟨2025, 11, 22⟩, "rc"),
   (⟨2025, 12, 22⟩, ⟨2025, 12, 30⟩, "rc"),
   (⟨2026, 3, 2⟩, ⟨2026, 3, 14⟩, "rc"),
   (⟨2026, 4, 13⟩, ⟨2026, 4, 25⟩, "rc"),
   (⟨2026, 5, 25⟩, ⟨2026, 6, 6⟩, "rc"),
   (⟨2025, 11, 3⟩, ⟨2025, 11, 4⟩, "holiday"),
   (⟨2025, 12, 31⟩, ⟨2026, 1, 11⟩, "holiday"),
   (⟨2026, 2, 23⟩, ⟨2026, 2, 23⟩, "holiday"),
   (⟨2026, 3, 9⟩, ⟨2026, 3, 9⟩, "holiday"),
   (⟨2026, 5, 1⟩, ⟨2026, 5, 2⟩, "holiday"),
   (⟨2026, 5, 11⟩, ⟨2026, 5, 11⟩, "holiday"),
   (⟨2026, 6, 12⟩, ⟨2026, 6, 13⟩, "holiday"),
   (⟨2026, 1, 12⟩, ⟨2026, 1, 24⟩, "exam"),
   (⟨2026, 6, 9⟩, ⟨2026, 6, 30⟩, "exam"),
   (⟨2026, 1, 26⟩, ⟨2026, 1, 31⟩, "vacation")]

/-- The first special period containing `d`, if any (the `for` loop over
`SPECIAL_PERIODS` in `get_week_status`). -/
def findPeriod (d : PDate) : Option (PDate × PDate × String) :=
  SPECIAL_PERIODS.find? (fun p => dateLe p.1 d && dateLe d p.2.1)

/-- `get_week_status` from `app/bot.py`: first-matching special period, then
the Sunday rule, then the block-parity arithmetic on the floor-divided week
index (`//` is floor division, `Int.fdiv`). -/
def get_week_status (d : PDate) : String :=
  match findPeriod d with
  | some p => p.2.2
  | none =>
    if isoweekday d = 7 then "holiday"
    else
      let weekNum : Int := Int.fdiv (dateSub d SEMESTER_START) 7 + 1
      if weekNum ≤ 0 then "before"
      else
        let block := Int.fdiv (weekNum - 1) 7
        if block % 2 = 0 then "odd" else "even"

/-- Modelled from the spec: the resolver algorithm of §4.2, steps 1–4, as
written (override periods in order, then the Sunday rule, then
`weekIndex = floor((date − semesterStart).days / 7) + 1` with `before` for
`weekIndex ≤ 0`, then the parity of `block = floor((weekIndex − 1) / 7)`). -/
def specResolve (d : PDate) : String :=
  match SPECIAL_PERIODS.find? (fun p => dateLe p.1 d && dateLe d p.2.1) with
  | some p => p.2.2
  | none =>
    if isoweekday d = 7 then "holiday"
    else
      let weekIndex : Int := Int.fdiv (dateSub d SEMESTER_START) 7 + 1
      if weekIndex ≤ 0 then "before"
      else if Int.fdiv (weekIndex - 1) 7 % 2 = 0 then "odd" else "even"

/-- The regime tags of the data model. -/
def regimeTags : List String :=
  ["odd", "even", "holiday", "vacation", "exam", "rc", "before"]

/-- Everything `dedupAux` keeps has a key outside the incoming seen set. -/
theorem dedupAux_not_seen (ls : List Lesson) :
    ∀ seen, ∀ y ∈ dedupAux ls seen, lessonKey y ∉ seen := by
  induction ls with
  | nil => intro seen y hy; simp [dedupAux] at hy
  | cons l t ih =>
    intro seen y hy
    by_cases h : lessonKey l ∈ seen
    · rw [dedupAux, if_pos h] at hy
      exact ih seen y hy
    · rw [dedupAux, if_neg h] at hy
      rcases List.mem_cons.mp hy with rfl | hy
      · exact h
      · intro hmem
        exact ih _ y hy (List.mem_cons_of_mem _ hmem)

/-- The keys of the deduplicated output are pairwise distinct. -/
theorem dedupAux_nodup (ls : List Lesson) :
    ∀ seen, ((dedupAux ls seen).map lessonKey).Nodup := by
  induction ls with
  | nil => intro seen; simp [dedupAux]
  | cons l t ih =>
    intro seen
    by_cases h : lessonKey l ∈ seen
    · rw [dedupAux, if_pos h]; exact ih seen
    · rw [dedupAux, if_neg h]
      refine List.nodup_cons.mpr ⟨?_, ih _⟩
      intro hmem
      rcases List.mem_map.mp hmem with ⟨y, hy, hk⟩
      exact dedupAux_not_seen t _ y hy (hk ▸ List.mem_cons_self _ _)

/-- Deduplication only removes elements: the output is a sublist of the
input, so the surviving records keep their relative input order. -/
theorem dedupAux_sublist (ls : List Lesson) :
    ∀ seen, (dedupAux ls seen).Sublist ls := by
  induction ls with
  | nil => intro seen; simp [dedupAux]
  | cons l t ih =>
    intro seen
    by_cases h : lessonKey l ∈ seen
    · rw [dedupAux, if_pos h]; exact (ih seen).cons l
    · rw [dedupAux, if_neg h]; exact (ih _).cons₂ l

/-- Every input key outside the seen set is represented in the output. -/
theorem dedupAux_complete (ls : List Lesson) :
    ∀ seen, ∀ x ∈ ls, lessonKey x ∉ seen →
      ∃ y ∈ dedupAux ls seen, lessonKey y = lessonKey x := by
  induction ls with
  | nil => intro seen x hx; simp at hx
  | cons l t ih =>
    intro seen x hx hns
    by_cases h : lessonKey l ∈ seen
    · rw [dedupAux, if_pos h]
      rcases List.mem_cons.mp hx with he | hx
      · exact absurd h (he ▸ hns)
      · exact ih seen x hx hns
    · rw [dedupAux, if_neg h]
      rcases List.mem_cons.mp hx with he | hx
      · exact ⟨l, List.mem_cons_self _ _, by rw [he]⟩
      · by_cases hk : lessonKey x = lessonKey l
        · exact ⟨l, List.mem_cons_self _ _, hk.symm⟩
        · have hrec := ih (lessonKey l :: seen) x hx
            (fun hc => (List.mem_cons.mp hc).elim (fun he => hk he) hns)
          rcases hrec with ⟨y, hy, hyk⟩
          exact ⟨y, List.mem_cons_of_mem _ hy, hyk⟩

/-- First occurrence wins: an input element whose key is new among what came
before it (and not in the seen set) survives deduplication itself. -/
theorem dedupAux_first (l₁ : List Lesson) :
    ∀ l₂ x seen,
      (∀ z ∈ l₁, lessonKey z ≠ lessonKey x) → lessonKey x ∉ seen →
      x ∈ dedupAux (l₁ ++ x :: l₂) seen := by
  induction l₁ with
  | nil =>
    intro l₂ x seen _ hns
    rw [List.nil_append, dedupAux, if_neg hns]
    exact List.mem_cons_self _ _
  | cons z t ih =>
    intro l₂ x seen hz hns
    by_cases h : lessonKey z ∈ seen
    · rw [List.cons_append, dedupAux, if_pos h]
      exact ih l₂ x seen (fun w hw => hz w (List.mem_cons_of_mem _ hw)) hns
    · rw [List.cons_append, dedupAux, if_neg h]
      refine List.mem_cons_of_mem _ ?_
      refine ih l₂ x _ (fun w hw => hz w (List.mem_cons_of_mem _ hw)) ?_
      intro hc
      rcases List.mem_cons.mp hc with he | hm
      · exact hz z (List.mem_cons_self _ _) he.symm
      · exact hns hm

/-- A record carries identifying content: one of title, room, teacher,
start, end is truthy.  This is exactly the emission guard of `push`. -/
def hasContentB (l : Lesson) : Bool :=
  truthy l.title || truthy l.room || truthy l.teacher ||
    truthy l.start || truthy l.endT

/-- Whatever `push` emits passes its own guard. -/
theorem pushRec_content (fs : JFields) (cd cw : J) (r : Lesson)
    (h : pushRec fs cd cw = some r) : hasContentB r = true := by
  simp only [pushRec] at h
  split at h
  · rename_i hguard
    cases h
    simpa [hasContentB] using hguard
  · cases h

mutual
/-- Every record collected by `walk` passes the `push` guard. -/
theorem walk_content : ∀ (node cd cw : J) (r : Lesson),
    r ∈ walk node cd cw → hasContentB r = true
  | .null, cd, cw, r => by intro h; simp [walk] at h
  | .str s, cd, cw, r => by intro h; simp [walk] at h
  | .num n, cd, cw, r => by intro h; simp [walk] at h
  | .bool b, cd, cw, r => by intro h; simp [walk] at h
  | .arr xs, cd, cw, r => by
    intro h
    rw [walk] at h
    exact walkList_content xs cd cw r h
  | .obj fs, cd, cw, r => by
    intro h
    rw [walk] at h
    rcases List.mem_append.mp h with h | h
    · by_cases hc : isCandidate fs = true
      · rw [if_pos hc] at h
        cases ho : pushRec fs cd cw with
        | none => rw [ho] at h; simp at h
        | some v =>
          rw [ho] at h
          simp at h
          subst h
          exact pushRec_content fs cd cw _ ho
      · rw [if_neg hc] at h; simp at h
    · simp only [List.mem_append, or_assoc] at h
      rcases h with h | h | h | h | h | h | h | h | h | h | h | h
      · exact walkField_content "Days" fs _ _ r h
      · exact walkField_content "DayItems" fs _ _ r h
      · exact walkField_content "Schedule" fs _ _ r h
      · exact walkField_content "Lessons" fs _ _ r h
      · exact walkField_content "Pairs" fs _ _ r h
      · exact walkField_content "Items" fs _ _ r h
      · exact walkField_content "All" fs _ _ r h
      · exact walkField_content "Numerator" fs _ _ r h
      · exact walkField_content "Odd" fs _ _ r h
      · exact walkField_content "Denominator" fs _ _ r h
      · exact walkField_content "Even" fs _ _ r h
      · exact walkAll_content fs _ _ r h
termination_by structural node _ _ _ => node

/-- List case of `walk_content`. -/
theorem walkList_content : ∀ (xs : JList) (cd cw : J) (r : Lesson),
    r ∈ walkList xs cd cw → hasContentB r = true
  | .nil, cd, cw, r => by intro h; simp [walkList] at h
  | .cons x t, cd, cw, r => by
    intro h
    rw [walkList] at h
    rcases List.mem_append.mp h with h | h
    · exact walk_content x cd cw r h
    · exact walkList_content t cd cw r h
termination_by structural xs _ _ _ => xs

/-- Keyed-field case of `walk_content`. -/
theorem walkField_content : ∀ (key : String) (fs : JFields) (cd cw : J) (r : Lesson),
    r ∈ walkField key fs cd cw → hasContentB r = true
  | key, .nil, cd, cw, r => by intro h; simp [walkField] at h
  | key, .cons k v t, cd, cw, r => by
    intro h
    rw [walkField] at h
    rcases List.mem_append.mp h with h | h
    · by_cases hk : k = key
      · rw [if_pos hk] at h
        exact walk_content v cd cw r h
      · rw [if_neg hk] at h; simp at h
    · exact walkField_content key t cd cw r h
termination_by structural _ fs _ _ _ => fs

/-- Catch-all case of `walk_content`. -/
theorem walkAll_content : ∀ (fs : JFields) (cd cw : J) (r : Lesson),
    r ∈ walkAll fs cd cw → hasContentB r = true
  | .nil, cd, cw, r => by intro h; simp [walkAll] at h
  | .cons k v t, cd, cw, r => by
    intro h
    cases v with
    | arr xs =>
      rw [walkAll] at h
      rcases List.mem_append.mp h with h | h
      · exact walk_content _ cd cw r h
      · exact walkAll_content t cd cw r h
    | obj gs =>
      rw [walkAll] at h
      rcases List.mem_append.mp h with h | h
      · exact walk_content _ cd cw r h
      · exact walkAll_content t cd cw r h
    | null =>
      rw [walkAll, List.nil_append] at h
      exact walkAll_content t cd cw r h
    | str s =>
      rw [walkAll, List.nil_append] at h
      exact walkAll_content t cd cw r h
    | num n =>
      rw [walkAll, List.nil_append] at h
      exact walkAll_content t cd cw r h
    | bool b =>
      rw [walkAll, List.nil_append] at h
      exact walkAll_content t cd cw r h
termination_by structural fs _ _ _ => fs
end

/-- Field shape of any record a single slot emits: the resolved day number,
the slot's week literal, and the pair's bell times. -/
theorem slotRecord_fields (dayNum : Int) (idx : Nat) (week : String)
    (fs : JFields) (key : String) (r : Lesson)
    (h : r ∈ slotRecord dayNum idx week fs key) :
    r.day = J.num dayNum ∧ r.week = week ∧
      r.start = optJ (PAIR_TIMES idx).1 ∧ r.endT = optJ (PAIR_TIMES idx).2 := by
  simp only [slotRecord] at h
  split at h
  · simp at h
  · split at h
    · rcases List.mem_singleton.mp h with rfl
      exact ⟨rfl, rfl, rfl, rfl⟩
    · simp at h

/-- The weekday table only holds day numbers 1..7. -/
theorem dayMapGet_range (name : String) (n : Int)
    (h : dayMapGet name = some n) : 1 ≤ n ∧ n ≤ 7 := by
  unfold dayMapGet at h
  cases hf : DAY_MAP_RU.find? (fun p => p.1 = name) with
  | none => rw [hf] at h; cases h
  | some p =>
    rw [hf] at h
    cases h
    have hp := List.mem_of_find?_eq_some hf
    have : ∀ q ∈ DAY_MAP_RU, 1 ≤ q.2 ∧ q.2 ≤ 7 := by decide
    exact this p hp

/-- The bell table is total on pair indices 1..7, with each start strictly
below its end in code-point order and both non-empty. -/
theorem PAIR_TIMES_total (i : Nat) (h1 : 1 ≤ i) (h7 : i ≤ 7) :
    ∃ a b, PAIR_TIMES i = (some a, some b) ∧ lexLe a.data b.data = true ∧
      a ≠ "" ∧ b ≠ "" := by
  interval_cases i
  · exact ⟨"08:30", "10:00", rfl, by decide, by decide, by decide⟩
  · exact ⟨"10:20", "11:50", rfl, by decide, by decide, by decide⟩
  · exact ⟨"12:10", "13:40", rfl, by decide, by decide, by decide⟩
  · exact ⟨"14:00", "15:30", rfl, by decide, by decide, by decide⟩
  · exact ⟨"15:50", "17:20", rfl, by decide, by decide, by decide⟩
  · exact ⟨"17:40", "19:10", rfl, by decide, by decide, by decide⟩
  · exact ⟨"19:30", "21:00", rfl, by decide, by decide, by decide⟩

/-- Every record of a slotted day-object: its day is a table value in 1..7,
its week is a parity literal, and its times are a bell-table pair. -/
theorem slotDay_invariant (d : J) (r : Lesson) (h : r ∈ slotDay d) :
    (∃ n : Int, 1 ≤ n ∧ n ≤ 7 ∧ r.day = J.num n) ∧
    (r.week = "odd" ∨ r.week = "even") ∧
    (∃ i a b, 1 ≤ i ∧ i ≤ 7 ∧ PAIR_TIMES i = (some a, some b) ∧
      lexLe a.data b.data = true ∧ a ≠ "" ∧ b ≠ "" ∧
      r.start = J.str a ∧ r.endT = J.str b) := by
  cases d with
  | obj fs =>
    simp only [slotDay] at h
    split at h
    · cases hd : dayMapGet (dayNameOf fs) with
      | none => rw [hd] at h; simp at h
      | some dayNum =>
        rw [hd] at h
        rcases List.mem_flatMap.mp h with ⟨i, hi, hmem⟩
        have hib := List.mem_range'_1.mp hi
        have hi1 : 1 ≤ i := hib.1
        have hi7 : i ≤ 7 := by omega
        rcases PAIR_TIMES_total i hi1 hi7 with ⟨a, b, hpt, hle, ha, hb⟩
        have hrange := dayMapGet_range _ _ hd
        rcases List.mem_append.mp hmem with hr | hr
        · rcases slotRecord_fields _ _ _ _ _ _ hr with ⟨hday, hweek, hst, hen⟩
          refine ⟨⟨dayNum, hrange.1, hrange.2, hday⟩, Or.inl hweek,
            i, a, b, hi1, hi7, hpt, hle, ha, hb, ?_, ?_⟩
          · rw [hst, hpt]; rfl
          · rw [hen, hpt]; rfl
        · rcases slotRecord_fields _ _ _ _ _ _ hr with ⟨hday, hweek, hst, hen⟩
          refine ⟨⟨dayNum, hrange.1, hrange.2, hday⟩, Or.inr hweek,
            i, a, b, hi1, hi7, hpt, hle, ha, hb, ?_, ?_⟩
          · rw [hst, hpt]; rfl
          · rw [hen, hpt]; rfl
    · simp at h
  | null => simp [slotDay] at h
  | str s => simp [slotDay] at h
  | num n => simp [slotDay] at h
  | bool b => simp [slotDay] at h
  | arr xs => simp [slotDay] at h

/-- A day-object whose weekday name is not in the table yields nothing. -/
theorem slotDay_skip (fs : JFields)
    (h : dayMapGet (dayNameOf fs) = none) : slotDay (J.obj fs) = [] := by
  simp only [slotDay]
  split
  · rw [h]
  · rfl

/-- The records of both parity slots of a pair index land in the
day-object's output. -/
theorem slotRecord_sub_slotDay (fs : JFields) (dayNum : Int) (i : Nat)
    (htype : fGet fs "type" = some (J.str "Lessons"))
    (hname : dayMapGet (dayNameOf fs) = some dayNum)
    (h1 : 1 ≤ i) (h7 : i ≤ 7) (r : Lesson)
    (hr : r ∈ slotRecord dayNum i "odd" fs "n" ++ slotRecord dayNum i "even" fs "z") :
    r ∈ slotDay (J.obj fs) := by
  simp only [slotDay, if_pos htype, hname]
  exact List.mem_flatMap.mpr ⟨i, List.mem_range'_1.mpr ⟨h1, by omega⟩, hr⟩

/-- Invariant lift from day-objects to the whole slotted parser. -/
theorem nsda_invariant : ∀ (xs : JList) (r : Lesson),
    r ∈ _normalize_special_day_array xs →
    (∃ n : Int, 1 ≤ n ∧ n ≤ 7 ∧ r.day = J.num n) ∧
    (r.week = "odd" ∨ r.week = "even") ∧
    (∃ i a b, 1 ≤ i ∧ i ≤ 7 ∧ PAIR_TIMES i = (some a, some b) ∧
      lexLe a.data b.data = true ∧ a ≠ "" ∧ b ≠ "" ∧
      r.start = J.str a ∧ r.endT = J.str b)
  | .nil, r => by intro h; simp [_normalize_special_day_array] at h
  | .cons d t, r => by
    intro h
    rw [_normalize_special_day_array] at h
    rcases List.mem_append.mp h with h | h
    · exact slotDay_invariant d r h
    · exact nsda_invariant t r h
termination_by structural xs _ => xs

/-- Every configured override period carries a regime tag. -/
theorem specialPeriods_tags : ∀ q ∈ SPECIAL_PERIODS, q.2.2 ∈ regimeTags := by
  decide

/-- C1: for every date the resolver returns the tag of the first override
period containing it; otherwise `holiday` on ISO weekday 7; otherwise
`before` when `weekIndex = floor((date − semesterStart).days / 7) + 1 ≤ 0`;
otherwise `odd`/`even` by the parity of `block = floor((weekIndex − 1) / 7)`
— i.e. `get_week_status` coincides with the resolver algorithm `specResolve`
written from the spec, and it is total: every date gets one of the seven
regime tags. -/
theorem C1_calendar_resolver (d : PDate) :
    get_week_status d = specResolve d ∧ get_week_status d ∈ regimeTags := by
  constructor
  · rfl
  · unfold get_week_status
    cases hf : findPeriod d with
    | some p =>
      have hp : p ∈ SPECIAL_PERIODS := by
        unfold findPeriod at hf
        exact List.mem_of_find?_eq_some hf
      exact specialPeriods_tags p hp
    | none =>
      by_cases h7 : isoweekday d = 7
      · simp [h7, regimeTags]
      · simp only [if_neg h7]
        split
        · decide
        · split
          · decide
          · decide

/-- C7 counterexample: 2025-08-31 is a Sunday not covered by any override
period, so the resolver classifies it `holiday`, not `before` as the claim
states. -/
theorem C7_counterexample :
    get_week_status ⟨2025, 8, 31⟩ = "holiday" ∧
      get_week_status ⟨2025, 8, 31⟩ ≠ "before" := by
  constructor
  · decide
  · decide

/-- C7 amended: with the configured semester start, 2025-09-01 resolves to
`odd` (parity of week 1); 2025-08-31 is in no override period but has ISO
weekday 7, and the Sunday rule precedes the before-semester computation, so
it resolves to `holiday`. -/
theorem C7_calendar_boundary :
    get_week_status ⟨2025, 9, 1⟩ = "odd" ∧
      findPeriod ⟨2025, 8, 31⟩ = none ∧
      isoweekday ⟨2025, 8, 31⟩ = 7 ∧
      get_week_status ⟨2025, 8, 31⟩ = "holiday" := by
  refine ⟨by decide, by decide, by decide, by decide⟩

/-- C3: the tokenizer resolves the two reference cells exactly as the spec
displays them, and in the second cell no remaining token passes the room
heuristic (digit or hyphen) or the teacher heuristic (period and space). -/
theorem C3_cell_parsing :
    _parse_cell_text "лк, 529а-3, Филатов Д.О., Общая психология" =
      (some "лк", some "529а-3", some "Филатов Д.О.", some "Общая психология") ∧
    _parse_cell_text "пр, Физическая культура и спорт, поток" =
      (some "пр", none, none, some "Физическая культура и спорт, поток") ∧
    _looks_like_room "Физическая культура и спорт" = false ∧
    _looks_like_room "поток" = false ∧
    _looks_like_teacher "Физическая культура и спорт" = false ∧
    _looks_like_teacher "поток" = false := by
  refine ⟨by decide, by decide, by decide, by decide, by decide, by decide⟩

/-- C8: every record of the slotted parser carries a day number 1..7 from
the weekday table, and a day-object whose (normalized) weekday name misses
the table contributes no records at all. -/
theorem C8_slotted_day_range :
    (∀ (xs : JList) (r : Lesson), r ∈ _normalize_special_day_array xs →
      ∃ n : Int, 1 ≤ n ∧ n ≤ 7 ∧ r.day = J.num n) ∧
    (∀ fs : JFields, dayMapGet (dayNameOf fs) = none →
      slotDay (J.obj fs) = []) := by
  constructor
  · intro xs r h
    exact (nsda_invariant xs r h).1
  · exact slotDay_skip

def c8xs : JList :=
  jlOf [J.obj (jfOf [("type", J.str "Lessons"), ("name", J.str "Вторник"),
    ("n3", J.str "лк")])]

def c8rec : Lesson :=
  ⟨J.num 2, J.str "12:10", J.str "13:40", J.null, J.null, J.null,
    J.str "лк", "odd"⟩

def c8bad : JFields :=
  jfOf [("type", J.str "Lessons"), ("name", J.str "середа"), ("n1", J.str "x")]

/-- Witness for `C8_slotted_day_range` at a concrete day-object and at a
concrete unrecognized weekday name. -/
theorem C8_slotted_day_range_witness :
    (∃ n : Int, 1 ≤ n ∧ n ≤ 7 ∧ c8rec.day = J.num n) ∧
      slotDay (J.obj c8bad) = [] :=
  ⟨C8_slotted_day_range.1 c8xs c8rec (by decide),
   C8_slotted_day_range.2 c8bad (by decide)⟩

/-- C9 counterexample: the generic walker copies `start`/`end` through
unvalidated, so a raw node with `Start = "23:00"`, `End = "01:00"` yields a
record whose start does not sort at or below its end. -/
theorem C9_counterexample :
    normalize_schedule (J.obj (jfOf [("Start", J.str "23:00"), ("End", J.str "01:00")])) =
      [⟨J.null, J.str "23:00", J.str "01:00", J.null, J.null, J.null, J.null, "all"⟩] ∧
    pyStrLe "23:00" "01:00" = false := by
  refine ⟨by decide, by decide⟩

/-- C9 amended: the ordering invariant holds for the slotted parser, whose
times come from the fixed bell table: in every slotted record with both
times, start sorts lexicographically at or below end.  (The generic walker
performs no such validation; see the counterexample.) -/
theorem C9_slotted_times_ordered :
    ∀ (xs : JList) (r : Lesson), r ∈ _normalize_special_day_array xs →
      ∀ a b : String, r.start = J.str a → r.endT = J.str b →
        pyStrLe a b = true := by
  intro xs r h a b hst hen
  rcases (nsda_invariant xs r h).2.2 with ⟨i, a', b', _, _, _, hle, _, _, hst', hen'⟩
  rw [hst'] at hst
  rw [hen'] at hen
  cases hst
  cases hen
  exact hle

def c9xs : JList :=
  jlOf [J.obj (jfOf [("type", J.str "Lessons"), ("name", J.str "Пятница"),
    ("z2", J.str "пр")])]

def c9rec : Lesson :=
  ⟨J.num 5, J.str "10:20", J.str "11:50", J.null, J.null, J.null,
    J.str "пр", "even"⟩

/-- Witness for `C9_slotted_times_ordered` at a concrete slotted record. -/
theorem C9_slotted_times_ordered_witness : pyStrLe "10:20" "11:50" = true :=
  C9_slotted_times_ordered c9xs c9rec (by decide) "10:20" "11:50"
    (by decide) (by decide)

/-- C10: every slotted record's week is `odd` or `even` (never `all`) and
its start and end both come from the bell table's pair for some index 1..7;
the records of the numerator and the denominator slot of a pair index are
separate records, and both land in the day-object's output; and a slot's
record always carries that slot's parity literal. -/
theorem C10_slotted_week_times :
    (∀ (xs : JList) (r : Lesson), r ∈ _normalize_special_day_array xs →
      (r.week = "odd" ∨ r.week = "even") ∧
      (∃ i a b, 1 ≤ i ∧ i ≤ 7 ∧ PAIR_TIMES i = (some a, some b) ∧
        r.start = J.str a ∧ r.endT = J.str b)) ∧
    (∀ (fs : JFields) (dayNum : Int) (i : Nat),
      fGet fs "type" = some (J.str "Lessons") →
      dayMapGet (dayNameOf fs) = some dayNum → 1 ≤ i → i ≤ 7 →
      ∀ r ∈ slotRecord dayNum i "odd" fs "n" ++ slotRecord dayNum i "even" fs "z",
        r ∈ slotDay (J.obj fs)) ∧
    (∀ (dayNum : Int) (i : Nat) (week : String) (fs : JFields) (key : String)
      (r : Lesson), r ∈ slotRecord dayNum i week fs key → r.week = week) := by
  refine ⟨?_, ?_, ?_⟩
  · intro xs r h
    rcases nsda_invariant xs r h with ⟨_, hweek, i, a, b, hi1, hi7, hpt, _, _, _, hst, hen⟩
    exact ⟨hweek, i, a, b, hi1, hi7, hpt, hst, hen⟩
  · intro fs dayNum i htype hname h1 h7 r hr
    exact slotRecord_sub_slotDay fs dayNum i htype hname h1 h7 r hr
  · intro dayNum i week fs key r hr
    exact (slotRecord_fields dayNum i week fs key r hr).2.1

def c10fs : JFields :=
  jfOf [("type", J.str "Lessons"), ("name", J.str "Среда"),
    ("n1", J.str "лк"), ("z1", J.str "пр")]

/-- Witness for `C10_slotted_week_times`: a pair index with both parity
slots filled produces one odd and one even record in the day's output. -/
theorem C10_slotted_week_times_witness :
    (⟨J.num 3, J.str "08:30", J.str "10:00", J.null, J.null, J.null,
       J.str "лк", "odd"⟩ : Lesson) ∈ slotDay (J.obj c10fs) ∧
    (⟨J.num 3, J.str "08:30", J.str "10:00", J.null, J.null, J.null,
       J.str "пр", "even"⟩ : Lesson) ∈ slotDay (J.obj c10fs) :=
  ⟨C10_slotted_week_times.2.1 c10fs 3 1 (by decide) (by decide) (by decide)
     (by decide) _ (by decide),
   C10_slotted_week_times.2.1 c10fs 3 1 (by decide) (by decide) (by decide)
     (by decide) _ (by decide)⟩

def c5rec : Lesson :=
  ⟨J.null, J.null, J.str "10:00", J.null, J.null, J.null, J.null, "all"⟩

/-- C5 counterexample: a candidate node carrying only an end time is kept by
the generic walker (its guard also counts `end`), so the output contains a
record with title, room, teacher and start all absent. -/
theorem C5_counterexample :
    normalize_schedule (J.obj (jfOf [("Start", J.null), ("End", J.str "10:00")])) =
      [c5rec] ∧
    c5rec.title = J.null ∧ c5rec.room = J.null ∧ c5rec.teacher = J.null ∧
    c5rec.start = J.null := by
  refine ⟨by decide, rfl, rfl, rfl, rfl⟩

/-- C5 amended: every record in the output of `normalize_schedule` has at
least one of title, room, teacher, start, **end** truthy (the source's
guard lists five fields, not four).  Slotted records always carry a truthy
start, so both paths satisfy this. -/
theorem C5_output_content (raw : J) (r : Lesson)
    (h : r ∈ normalize_schedule raw) : hasContentB r = true := by
  have hded : ∀ node : J, r ∈ dedupAux (walk node J.null J.null) [] →
      hasContentB r = true := fun node hm =>
    walk_content node J.null J.null r ((dedupAux_sublist _ _).subset hm)
  have hslot : ∀ xs : JList, r ∈ _normalize_special_day_array xs →
      hasContentB r = true := by
    intro xs hm
    rcases (nsda_invariant xs r hm).2.2 with ⟨_, a, b, _, _, _, _, ha, _, hst, _⟩
    simp [hasContentB, hst, truthy, ha]
  cases raw with
  | arr xs =>
    rw [normalize_schedule] at h
    split at h
    · exact hslot xs h
    · exact hded _ h
  | null => exact hded _ h
  | str s => exact hded _ h
  | num n => exact hded _ h
  | bool b => exact hded _ h
  | obj fs => exact hded _ h

def c5wraw : J := J.obj (jfOf [("Title", J.str "Математика")])

def c5wrec : Lesson :=
  ⟨J.null, J.null, J.null, J.str "Математика", J.null, J.null, J.null, "all"⟩

/-- Witness for `C5_output_content` at a concrete raw input and record. -/
theorem C5_output_content_witness : hasContentB c5wrec = true :=
  C5_output_content c5wraw c5wrec (by decide)

def c4day : JFields :=
  jfOf [("type", J.str "Lessons"), ("name", J.str "Понедельник"),
    ("n1", J.str "лк")]

def c4rec : Lesson :=
  ⟨J.num 1, J.str "08:30", J.str "10:00", J.null, J.null, J.null,
    J.str "лк", "odd"⟩

/-- C4 counterexample: the slotted path returns its records without the
deduplication pass, so two identical day-objects produce two records equal
on the full dedup key tuple. -/
theorem C4_counterexample :
    normalize_schedule (J.arr (jlOf [J.obj c4day, J.obj c4day])) =
      [c4rec, c4rec] ∧
    ¬ ((normalize_schedule (J.arr (jlOf [J.obj c4day, J.obj c4day]))).map
        lessonKey).Nodup := by
  have h1 : normalize_schedule (J.arr (jlOf [J.obj c4day, J.obj c4day])) =
      [c4rec, c4rec] := by decide
  refine ⟨h1, ?_⟩
  rw [h1]
  intro hnd
  exact (List.nodup_cons.mp hnd).1 (List.mem_singleton.mpr rfl)

/-- When the slotted format is not detected, the output is the dedup pass
over the walker's records. -/
theorem normalize_not_slotted (raw : J) (h : detectSlotted raw = false) :
    normalize_schedule raw = dedupAux (walk raw J.null J.null) [] := by
  cases raw with
  | arr xs =>
    have hx : anySlotKeys xs = false := h
    rw [normalize_schedule, if_neg (by simp [hx])]
  | null => rfl
  | str s => rfl
  | num n => rfl
  | bool b => rfl
  | obj fs => rfl

/-- C4 amended: on every input the slotted detection does **not** match,
the output of `normalize_schedule` is deduplicated on the full record tuple:
keys are pairwise distinct, the output is a sublist of the walk's records
(insertion order kept), every walked key is represented, and the first
record seen with a given key is the one kept.  The slotted path returns its
records without this pass (see the counterexample). -/
theorem C4_generic_dedup (raw : J) (h : detectSlotted raw = false) :
    ((normalize_schedule raw).map lessonKey).Nodup ∧
    (normalize_schedule raw).Sublist (walk raw J.null J.null) ∧
    (∀ x ∈ walk raw J.null J.null,
      ∃ y ∈ normalize_schedule raw, lessonKey y = lessonKey x) ∧
    (∀ (l₁ l₂ : List Lesson) (x : Lesson),
      walk raw J.null J.null = l₁ ++ x :: l₂ →
      (∀ z ∈ l₁, lessonKey z ≠ lessonKey x) → x ∈ normalize_schedule raw) := by
  rw [normalize_not_slotted raw h]
  refine ⟨dedupAux_nodup _ _, dedupAux_sublist _ _, ?_, ?_⟩
  · intro x hx
    exact dedupAux_complete _ _ x hx (List.not_mem_nil _)
  · intro l₁ l₂ x hw hz
    rw [hw]
    exact dedupAux_first l₁ l₂ x [] hz (List.not_mem_nil _)

def c4wraw : J := J.obj (jfOf [("Title", J.str "К")])

/-- Witness for `C4_generic_dedup` at a concrete non-slotted input. -/
theorem C4_generic_dedup_witness :
    ((normalize_schedule c4wraw).map lessonKey).Nodup :=
  (C4_generic_dedup c4wraw (by decide)).1

/-- A `JList` as a Lean list (for membership statements). -/
def jlToList : JList → List J
  | .nil => []
  | .cons h t => h :: jlToList t

/-- The detection predicate characterized: some element is a dict carrying
key `n1` or key `z1`. -/
theorem anySlotKeys_iff : ∀ xs : JList, anySlotKeys xs = true ↔
    ∃ fs, J.obj fs ∈ jlToList xs ∧ (fHas fs "n1" || fHas fs "z1") = true
  | .nil => by simp [anySlotKeys, jlToList]
  | .cons h t => by
    cases h with
    | obj fs =>
      rw [anySlotKeys, jlToList, Bool.or_eq_true]
      constructor
      · rintro (hc | hc)
        · exact ⟨fs, List.mem_cons_self _ _, hc⟩
        · rcases (anySlotKeys_iff t).mp hc with ⟨gs, hm, hk⟩
          exact ⟨gs, List.mem_cons_of_mem _ hm, hk⟩
      · rintro ⟨gs, hm, hk⟩
        rcases List.mem_cons.mp hm with he | hm
        · left
          injection he with h2
          rw [← h2]
          exact hk
        · right
          exact (anySlotKeys_iff t).mpr ⟨gs, hm, hk⟩
    | null =>
      rw [anySlotKeys, jlToList]
      simp [anySlotKeys_iff t]
    | str s =>
      rw [anySlotKeys, jlToList]
      simp [anySlotKeys_iff t]
    | num n =>
      rw [anySlotKeys, jlToList]
      simp [anySlotKeys_iff t]
    | bool b =>
      rw [anySlotKeys, jlToList]
      simp [anySlotKeys_iff t]
    | arr ys =>
      rw [anySlotKeys, jlToList]
      simp [anySlotKeys_iff t]
termination_by structural xs => xs

/-- C2 amended: the slotted dispatch is decided by the index-1 slot keys
alone — the parser is used exclusively iff some top-level element is a dict
containing key `n1` or key `z1`, and otherwise the output is the dedup pass
over the generic walker; an element exposing the slot-key convention only at
a higher index does not trigger it (see the counterexample). -/
theorem C2_dispatch (xs : JList) :
    (detectSlotted (J.arr xs) = true ↔
      ∃ fs, J.obj fs ∈ jlToList xs ∧ (fHas fs "n1" || fHas fs "z1") = true) ∧
    (detectSlotted (J.arr xs) = true →
      normalize_schedule (J.arr xs) = _normalize_special_day_array xs) ∧
    (detectSlotted (J.arr xs) = false →
      normalize_schedule (J.arr xs) =
        dedupAux (walk (J.arr xs) J.null J.null) []) := by
  refine ⟨anySlotKeys_iff xs, ?_, ?_⟩
  · intro h
    have hx : anySlotKeys xs = true := h
    rw [normalize_schedule, if_pos hx]
  · intro h
    have hx : anySlotKeys xs = false := h
    rw [normalize_schedule, if_neg (by simp [hx])]

def c2wxs : JList := jlOf [J.obj (jfOf [("z1", J.str "пр, поток")])]

/-- Witness for `C2_dispatch` at a concrete detected input. -/
theorem C2_dispatch_witness :
    normalize_schedule (J.arr c2wxs) = _normalize_special_day_array c2wxs :=
  (C2_dispatch c2wxs).2.1 (by decide)

/-- Modelled from the spec: an element "exposes the slot-key naming
convention (index-suffixed numerator/denominator key pairs)" — it is a dict
with an `n`- or `z`-prefixed key for some pair index 1..7. -/
def specSlotKeyConvention (fs : JFields) : Bool :=
  (List.range' 1 7).any
    (fun i => fHas fs ("n" ++ toString i) || fHas fs ("z" ++ toString i))

def c2elem : JFields :=
  jfOf [("n2", J.str "x"), ("z2", J.str "y"), ("Start", J.str "08:30")]

/-- C2 counterexample: an element exposing the numerator/denominator slot
keys only at index 2 satisfies the spec's convention, yet detection fails
and the input is processed by the generic walker, not the slotted parser —
the outputs of the two differ. -/
theorem C2_counterexample :
    specSlotKeyConvention c2elem = true ∧
    detectSlotted (J.arr (jlOf [J.obj c2elem])) = false ∧
    normalize_schedule (J.arr (jlOf [J.obj c2elem])) =
      [⟨J.null, J.str "08:30", J.null, J.null, J.null, J.null, J.null, "all"⟩] ∧
    normalize_schedule (J.arr (jlOf [J.obj c2elem])) ≠
      _normalize_special_day_array (jlOf [J.obj c2elem]) := by
  refine ⟨by decide, by decide, by decide, by decide⟩

/-- `_pick` either returns a node-local value — some listed alias key holds
a value that is neither `None` nor `""`, and the result is such a value — or
no listed key holds a usable value and the inherited default passes through
unchanged. -/
theorem _pick_spec (fs : JFields) :
    ∀ (keys : List String) (dflt : J),
      (∃ k v, k ∈ keys ∧ fGet fs k = some v ∧ v ≠ J.null ∧ v ≠ J.str "" ∧
        _pick fs keys dflt = v) ∨
      ((∀ k ∈ keys, ∀ v, fGet fs k = some v → v = J.null ∨ v = J.str "") ∧
        _pick fs keys dflt = dflt) := by
  intro keys
  induction keys with
  | nil =>
    intro dflt
    right
    exact ⟨by simp, rfl⟩
  | cons k ks ih =>
    intro dflt
    cases hg : fGet fs k with
    | some v =>
      by_cases hv : v ≠ J.null ∧ v ≠ J.str ""
      · left
        refine ⟨k, v, List.mem_cons_self _ _, hg, hv.1, hv.2, ?_⟩
        simp only [_pick, hg]
        rw [if_pos hv]
      · rcases ih dflt with ⟨k', v', hk', hget, h1, h2, hres⟩ | ⟨hall, hres⟩
        · left
          refine ⟨k', v', List.mem_cons_of_mem _ hk', hget, h1, h2, ?_⟩
          simp only [_pick, hg]
          rw [if_neg hv]
          exact hres
        · right
          constructor
          · intro k2 hk2 v2 hg2
            rcases List.mem_cons.mp hk2 with rfl | hm
            · rw [hg] at hg2
              cases hg2
              rcases not_and_or.mp hv with h | h
              · exact Or.inl (not_not.mp h)
              · exact Or.inr (not_not.mp h)
            · exact hall k2 hm v2 hg2
          · simp only [_pick, hg]
            rw [if_neg hv]
            exact hres
    | none =>
      rcases ih dflt with ⟨k', v', hk', hget, h1, h2, hres⟩ | ⟨hall, hres⟩
      · left
        refine ⟨k', v', List.mem_cons_of_mem _ hk', hget, h1, h2, ?_⟩
        simp only [_pick, hg]
        exact hres
      · right
        constructor
        · intro k2 hk2 v2 hg2
          rcases List.mem_cons.mp hk2 with rfl | hm
          · rw [hg] at hg2
            cases hg2
          · exact hall k2 hm v2 hg2
        · simp only [_pick, hg]
          exact hres

/-- C6 amended: on every dict node, a candidate is pushed with the inherited
context; the children under the six container keys and under the catch-all
recursion receive the updated day/week context — the node-local value when a
day/week alias key holds a usable (non-`None`, non-empty) value, the
inherited value otherwise — while the children under the five week-variant
keys receive the *inherited* day together with the variant's forced week
literal (the node-local day does not apply there), and the catch-all then
re-walks those same subtrees with the updated context; and a pushed record's
day and week are exactly the updated context values (day through `push`'s
numeric coercion), hence the inherited ones when the node holds no usable
day/week of its own. -/
theorem C6_context (fs : JFields) (cd cw : J) :
    (walk (J.obj fs) cd cw =
      (if isCandidate fs then (pushRec fs cd cw).toList else []) ++
      (walkField "Days" fs (_pick fs dayKeys cd) (_pick fs weekKeys cw) ++
       walkField "DayItems" fs (_pick fs dayKeys cd) (_pick fs weekKeys cw) ++
       walkField "Schedule" fs (_pick fs dayKeys cd) (_pick fs weekKeys cw) ++
       walkField "Lessons" fs (_pick fs dayKeys cd) (_pick fs weekKeys cw) ++
       walkField "Pairs" fs (_pick fs dayKeys cd) (_pick fs weekKeys cw) ++
       walkField "Items" fs (_pick fs dayKeys cd) (_pick fs weekKeys cw) ++
       walkField "All" fs cd (J.str "all") ++
       walkField "Numerator" fs cd (J.str "odd") ++
       walkField "Odd" fs cd (J.str "odd") ++
       walkField "Denominator" fs cd (J.str "even") ++
       walkField "Even" fs cd (J.str "even") ++
       walkAll fs (_pick fs dayKeys cd) (_pick fs weekKeys cw))) ∧
    ((∃ d, d ≠ J.null ∧ d ≠ J.str "" ∧ (∃ k ∈ dayKeys, fGet fs k = some d) ∧
        _pick fs dayKeys cd = d) ∨
      ((∀ k ∈ dayKeys, ∀ v, fGet fs k = some v → v = J.null ∨ v = J.str "") ∧
        _pick fs dayKeys cd = cd)) ∧
    ((∃ w, w ≠ J.null ∧ w ≠ J.str "" ∧ (∃ k ∈ weekKeys, fGet fs k = some w) ∧
        _pick fs weekKeys cw = w) ∨
      ((∀ k ∈ weekKeys, ∀ v, fGet fs k = some v → v = J.null ∨ v = J.str "") ∧
        _pick fs weekKeys cw = cw)) ∧
    (∀ r, pushRec fs cd cw = some r →
      r.day = coerceDay (_pick fs dayKeys cd) ∧
      r.week = normalize_week_type (_pick fs weekKeys cw)) := by
  refine ⟨rfl, ?_, ?_, ?_⟩
  · rcases _pick_spec fs dayKeys cd with ⟨k, v, hk, hg, h1, h2, hres⟩ | h
    · exact Or.inl ⟨v, h1, h2, ⟨k, hk, hg⟩, hres⟩
    · exact Or.inr h
  · rcases _pick_spec fs weekKeys cw with ⟨k, v, hk, hg, h1, h2, hres⟩ | h
    · exact Or.inl ⟨v, h1, h2, ⟨k, hk, hg⟩, hres⟩
    · exact Or.inr h
  · intro r hr
    simp only [pushRec] at hr
    split at hr
    · cases hr
      exact ⟨rfl, rfl⟩
    · cases hr

def c6wfs : JFields := jfOf [("Title", J.str "X")]

/-- Witness for `C6_context`: a pushed candidate with no day/week keys of
its own takes the inherited context values — here day context 5 and numeric
week context 2 (normalized to "even"). -/
theorem C6_context_witness :
    (⟨J.num 5, J.null, J.null, J.str "X", J.null, J.null, J.null,
        "even"⟩ : Lesson).day = coerceDay (_pick c6wfs dayKeys (J.num 5)) ∧
    (⟨J.num 5, J.null, J.null, J.str "X", J.null, J.null, J.null,
        "even"⟩ : Lesson).week =
      normalize_week_type (_pick c6wfs weekKeys (J.num 2)) :=
  (C6_context c6wfs (J.num 5) (J.num 2)).2.2.2
    ⟨J.num 5, J.null, J.null, J.str "X", J.null, J.null, J.null, "even"⟩
    (by decide)

def c6raw : J :=
  J.obj (jfOf [("Day", J.num 3),
    ("Odd", J.arr (jlOf [J.obj (jfOf [("Start", J.str "08:30")])]))])

def c6odd : Lesson :=
  ⟨J.null, J.str "08:30", J.null, J.null, J.null, J.null, J.null, "odd"⟩

def c6all : Lesson :=
  ⟨J.num 3, J.str "08:30", J.null, J.null, J.null, J.null, J.null, "all"⟩

/-- C6 counterexample: under `{"Day": 3, "Odd": [{"Start": "08:30"}]}` the
record reached through the week-variant key keeps the (empty) inherited day
— its day is `null`, not the node's 3 — so a node-local day does *not*
replace the inherited context for week-variant subtrees as claimed. -/
theorem C6_counterexample :
    normalize_schedule c6raw = [c6odd, c6all] ∧
    c6odd.week = "odd" ∧ c6odd.day = J.null ∧ c6odd.day ≠ J.num 3 := by
  refine ⟨by decide, rfl, rfl, by decide⟩
